import Mathlib

/-!
Verification of the extraction-and-reconciliation pipeline of
`script/scrape.py` (book-table-data).

The Python source is shallowly embedded below.  Python strings are
`String`/`List Char`, Python floats are modelled exactly as `ℚ`
(every decimal string the pipeline handles denotes a rational, and
fixed-precision formatting is exact on them), Python `dict`s are
insertion-ordered association lists, and fallible code returns
`Except String`/`Option`.  The HTTP fetch and HTML document-query
capabilities are external collaborators; the extractors' per-URL
outcomes are therefore parameters of the scrape driver, and the
RoyalRoad ratings-count rule is embedded as a function of the
sequence of list-item texts.
-/

/-- Characters Python treats as whitespace in `str.strip` / `\s` (ASCII fragment). -/
def isPyWs (c : Char) : Bool :=
  c.toNat = 32 || c.toNat = 9 || c.toNat = 10 || c.toNat = 13 || c.toNat = 11 || c.toNat = 12

/-- ASCII lowercasing of one character, modelling `str.lower` on the ASCII fragment. -/
def lowerChar (c : Char) : Char :=
  if 65 ≤ c.toNat ∧ c.toNat ≤ 90 then Char.ofNat (c.toNat + 32) else c

/-- Python `str.strip` pass for trailing whitespace (drop from the right). -/
def rdropWs (l : List Char) : List Char :=
  (l.reverse.dropWhile (fun c => isPyWs c)).reverse

/-- Python `str.strip`: drop leading and trailing whitespace. -/
def stripL (l : List Char) : List Char :=
  rdropWs (l.dropWhile (fun c => isPyWs c))

/-- Python `text.replace(",", ".")`: single-character replace is a character map. -/
def commaToDot (l : List Char) : List Char :=
  l.map (fun c => if c = ',' then '.' else c)

/-- The digit character for a value `d < 10` (code point `48 + d`). -/
def digitChar (d : Nat) : Char := Char.ofNat (48 + d)

/-- Base-10 value of a big-endian digit-character list (the parse performed by
`int(...)` on an all-digit string). -/
def valDigits (l : List Char) : Nat :=
  l.foldl (fun a c => 10 * a + (c.toNat - 48)) 0

/-- Helper for `decDigits`: peel decimal digits into an accumulator. -/
def decAux : Nat → List Char → List Char
  | n, acc =>
    if h : n < 10 then digitChar n :: acc
    else decAux (n / 10) (digitChar (n % 10) :: acc)
  termination_by n => n
  decreasing_by
    exact Nat.div_lt_self (by omega) (by omega)

/-- Big-endian decimal digits of `n` (the rendering performed by `str(n)` /
the integral part of an f-string). -/
def decDigits (n : Nat) : List Char := decAux n []

/-- Python `str(n)` for a natural number. -/
def natStr (n : Nat) : String := ⟨decDigits n⟩

/-- Embeds `_clean_int` (src/script/scrape.py lines 20-24):
`re.sub` keeps only the digit characters, then `int` parses them;
a `ValueError` (modelled as `.error`) is raised when no digit remains. -/
def _clean_int (s : String) : Except String Nat :=
  let digits := s.data.filter Char.isDigit
  if digits = [] then .error ("Could not parse int from: " ++ s)
  else .ok (valDigits digits)

/-- Mantissa of Python `float(...)`: `digits [ "." [digits] ]` or `"." digits`,
returning its exact rational value and the unconsumed remainder. -/
def parseMantissa (l : List Char) : Option (ℚ × List Char) :=
  let ip := l.takeWhile Char.isDigit
  let r1 := l.dropWhile Char.isDigit
  match r1 with
  | '.' :: r2 =>
    let fp := r2.takeWhile Char.isDigit
    let r3 := r2.dropWhile Char.isDigit
    if ip = [] ∧ fp = [] then none
    else some (((valDigits ip : ℚ) + (valDigits fp : ℚ) / (10 : ℚ) ^ fp.length, r3))
  | _ => if ip = [] then none else some (((valDigits ip : ℚ), r1))

/-- Exponent digits of a float literal: nonempty all-digit suffix, as a power of ten. -/
def expDigits (ds : List Char) : Option ℚ :=
  if ds ≠ [] ∧ ds.all Char.isDigit then some ((10 : ℚ) ^ valDigits ds) else none

/-- Scale factor contributed by the optional exponent part of a float literal;
fails unless the remainder is empty or a well-formed exponent. -/
def parseExpMult (l : List Char) : Option ℚ :=
  match l with
  | [] => some 1
  | c :: t =>
    if c = 'e' ∨ c = 'E' then
      match t with
      | '+' :: ds => expDigits ds
      | '-' :: ds => (expDigits ds).map (fun q => 1 / q)
      | ds => expDigits ds
    else none

/-- Unsigned part of Python `float(...)`: mantissa followed by an optional exponent. -/
def pyFloatCore (l : List Char) : Option ℚ :=
  match parseMantissa l with
  | none => none
  | some (m, rest) =>
    match parseExpMult rest with
    | none => none
    | some mult => some (m * mult)

/-- Python `float(text)` on already-stripped text (finite decimal literals;
`inf`/`nan`/underscores are outside this pipeline's inputs), with the value
taken exactly as a rational. -/
def pyFloatL (l : List Char) : Option ℚ :=
  match l with
  | [] => none
  | c :: t =>
    if c = '+' then pyFloatCore t
    else if c = '-' then (pyFloatCore t).map (fun q => -q)
    else pyFloatCore (c :: t)

/-- Embeds `_clean_float` (src/script/scrape.py lines 26-28):
`text.strip().replace(",", ".")` then `float(...)`. -/
def _clean_float (s : String) : Except String ℚ :=
  match pyFloatL (commaToDot (stripL s.data)) with
  | some q => .ok q
  | none =>
    .error ("could not convert string to float: " ++ (⟨commaToDot (stripL s.data)⟩ : String))

deriving instance DecidableEq for Except

/-- Round a rational to the nearest integer, ties to even (the rounding used by
`format(x, ".2f")`). -/
def rhe (q : ℚ) : ℤ :=
  if q - ⌊q⌋ < 1 / 2 then ⌊q⌋
  else if 1 / 2 < q - ⌊q⌋ then ⌊q⌋ + 1
  else if ⌊q⌋ % 2 = 0 then ⌊q⌋ else ⌊q⌋ + 1

/-- Two-digit zero-padded rendering of `r < 100` (the fraction part of `"%.2f"`). -/
def pad2 (r : Nat) : List Char :=
  if r < 10 then '0' :: decDigits r else decDigits r

/-- Rendering of `n` hundredths in fixed 2-decimal notation: `f"{n/100:.2f}"`. -/
def natFixed2 (n : Nat) : List Char :=
  decDigits (n / 100) ++ '.' :: pad2 (n % 100)

/-- `f"{x:.2f}"`: round to hundredths (ties to even) and render with two decimals. -/
def fmtFixed2 (x : ℚ) : List Char :=
  if rhe (100 * x) < 0 then '-' :: natFixed2 (rhe (100 * x)).natAbs
  else natFixed2 (rhe (100 * x)).toNat

/-- Python `s.rstrip(c)` for a single-character strip set. -/
def rstripChar (c : Char) (l : List Char) : List Char :=
  (l.reverse.dropWhile (fun x => x == c)).reverse

/-- Embeds `_format_rating` (src/script/scrape.py lines 50-51):
`f"{rating:.2f}".rstrip("0").rstrip(".")`. -/
def _format_rating (x : ℚ) : String :=
  ⟨rstripChar '.' (rstripChar '0' (fmtFixed2 x))⟩

/-- The two scrape sources of the script (the strings "goodreads"/"royalroad"). -/
inductive Source
  | goodreads
  | royalroad
  deriving DecidableEq

/-- The nested `vendors.rr` object of a catalog record: may carry a RoyalRoad URL. -/
structure RRInfo where
  url : Option String
  deriving DecidableEq

/-- The `vendors` object of a catalog record. -/
structure Vendors where
  rr : Option RRInfo
  deriving DecidableEq

/-- A catalog record: the fields the core reads/writes (`url`, `vendors.rr.url`,
`rating`, `r_count`) plus an opaque bag `extra` for all other key/value pairs,
which the core must preserve verbatim. -/
structure Book where
  url : Option String
  vendors : Option Vendors
  rating : Option String
  r_count : Option String
  extra : List (String × String)
  deriving DecidableEq

/-- Python truthiness of an optional string: present and non-empty. -/
def truthy : Option String → Bool
  | none => false
  | some s => !(s == "")

/-- `vendors = book.get("vendors") or {}; rr = vendors.get("rr") or {}; rr.get("url")`
(src/script/scrape.py lines 42-44). -/
def rr_url_of (b : Book) : Option String :=
  match b.vendors with
  | none => none
  | some v =>
    match v.rr with
    | none => none
    | some r => r.url

/-- Embeds `pick_source_url` (src/script/scrape.py lines 30-48). -/
def pick_source_url (b : Book) : Option Source × Option String :=
  if truthy b.url then (some Source.goodreads, b.url)
  else if truthy (rr_url_of b) then (some Source.royalroad, rr_url_of b)
  else (none, none)

/-- Whitespace-run collapsing, `re.sub(r"\s+", " ", text)`: the flag records
whether the previous character was whitespace (so a run emits one space). -/
def collapseA : Bool → List Char → List Char
  | _, [] => []
  | prevWs, c :: cs =>
    if isPyWs c then
      if prevWs then collapseA true cs else ' ' :: collapseA true cs
    else c :: collapseA false cs

/-- The key normalization of the RoyalRoad stats loop
(src/script/scrape.py line 114): `re.sub(r"\s+", " ", key).strip().lower()`. -/
def normKey (k : String) : String :=
  ⟨(stripL (collapseA false k.data)).map lowerChar⟩

/-- The label test of src/script/scrape.py line 116:
`key_norm in ("ratings :", "ratings:", "ratings")`. -/
def isRatingsLabel (k : String) : Bool :=
  normKey k == "ratings :" || normKey k == "ratings:" || normKey k == "ratings"

/-- The error raised when the stats list has no usable Ratings label
(src/script/scrape.py line 123). -/
def rrCountMsg : String := "RoyalRoad: could not locate Ratings count in stats list"

/-- Embeds the ratings-count loop of `scrape_royalroad`
(src/script/scrape.py lines 111-123) over the sequence of list-item texts:
scan for the first Ratings label that has a following item, parse that item
with `_clean_int` (its failure propagates), otherwise fail. -/
def scanRatings : List String → Except String Nat
  | [] => .error rrCountMsg
  | [_] => .error rrCountMsg
  | k :: v :: rest => if isRatingsLabel k then _clean_int v else scanRatings (v :: rest)

/-- Python `dict.setdefault` on an insertion-ordered association list. -/
def setdefault (m : List (String × Source)) (k : String) (v : Source) :
    List (String × Source) :=
  if m.any (fun p => p.1 == k) then m else m ++ [(k, v)]

/-- First-match lookup in an insertion-ordered association list (`dict` access). -/
def lookupA {α : Type} (m : List (String × α)) (u : String) : Option α :=
  (m.find? (fun p => p.1 == u)).map Prod.snd

/-- Loop body of `build_targets` (src/script/scrape.py lines 143-148): resolve
the record and, when both components are present, insert the pair if absent
(`targets.setdefault(url, source)`); otherwise `continue`. -/
def buildStep (targets : List (String × Source)) (book : Book) : List (String × Source) :=
  match pick_source_url book with
  | (some source, some url) => setdefault targets url source
  | _ => targets

/-- Embeds `build_targets` (src/script/scrape.py lines 137-149). -/
def build_targets (all_books : List Book) : List (String × Source) :=
  all_books.foldl buildStep []

/-- Per-URL dispatch of the scrape loop (src/script/scrape.py lines 158-161):
`goodreads` uses the Goodreads extractor, anything else the RoyalRoad one.
The extractors themselves wrap HTTP and HTML querying (external collaborators),
so their per-URL outcomes are parameters. -/
def dispatchExtract (g r : String → Except String (ℚ × Nat)) (url : String) :
    Source → Except String (ℚ × Nat)
  | Source.goodreads => g url
  | Source.royalroad => r url

/-- Embeds `scrape_targets` (src/script/scrape.py lines 151-174), parameterized
by the two extractors' outcomes: per target, a success stores
`(_format_rating rating, str(count))` in the cache, a failure is swallowed and
counted.  Returns the cache together with the failure counter. -/
def scrape_targets (g r : String → Except String (ℚ × Nat)) :
    List (String × Source) → List (String × (String × String)) × Nat
  | [] => ([], 0)
  | (url, source) :: rest =>
    let res := dispatchExtract g r url source
    let acc := scrape_targets g r rest
    match res with
    | .ok (rating, count) => ((url, (_format_rating rating, natStr count)) :: acc.1, acc.2)
    | .error _ => (acc.1, acc.2 + 1)

/-- Body of the `apply_cache` loop (src/script/scrape.py lines 178-187) for one
record: resolve, skip when the URL is absent or not cached, otherwise overwrite
both stored fields when either differs from the cached pair.  Returns the
(possibly updated) record and whether it was modified. -/
def applyBook (cache : List (String × (String × String))) (b : Book) : Book × Bool :=
  match (pick_source_url b).2 with
  | none => (b, false)
  | some u =>
    match lookupA cache u with
    | none => (b, false)
    | some rc =>
      if !(b.rating.getD "" == rc.1) || !(b.r_count.getD "" == rc.2) then
        ({ b with rating := some rc.1, r_count := some rc.2 }, true)
      else (b, false)

/-- Embeds `apply_cache` (src/script/scrape.py lines 176-188): fold the loop
body over the records, OR-ing the per-record changed flags. -/
def apply_cache : List Book → List (String × (String × String)) → List Book × Bool
  | [], _ => ([], false)
  | b :: bs, cache =>
    let hd := applyBook cache b
    let tl := apply_cache bs cache
    (hd.1 :: tl.1, hd.2 || tl.2)

/-- Drop a single trailing colon, if present. -/
def stripTrailingColon (l : List Char) : List Char :=
  match l.reverse with
  | ':' :: t => t.reverse
  | _ => l

/-- Modelled from the spec wording of the RoyalRoad rule: the item text
normalized by whitespace-collapsing, case-folding (as in `normKey`) and then
stripping a trailing colon together with the space that may precede it. -/
def specNormKey (k : String) : String :=
  ⟨rdropWs (stripTrailingColon (normKey k).data)⟩

/-- The `(url, source)` pair each record resolves to, when it resolves at all:
the stream `build_targets` deduplicates. -/
def resolvedPairs (bs : List Book) : List (String × Source) :=
  bs.filterMap (fun b =>
    match pick_source_url b with
    | (some source, some url) => some ((url, source))
    | _ => none)

theorem valDigits_append_singleton (l : List Char) (c : Char) :
    valDigits (l ++ [c]) = 10 * valDigits l + (c.toNat - 48) := by
  simp [valDigits, List.foldl_append]

theorem valDigits_eq_ofDigits (l : List Char) :
    valDigits l = Nat.ofDigits 10 ((l.map (fun c => c.toNat - 48)).reverse) := by
  induction l using List.reverseRecOn with
  | nil => simp [valDigits, Nat.ofDigits]
  | append_singleton l c ih =>
    rw [valDigits_append_singleton]
    simp [Nat.ofDigits_cons, ih]
    ring

/-- Claim C1: for every catalog record, `pick_source_url` returns the primary
pair whenever `record.url` is present and non-empty (regardless of the vendor
URL); otherwise the RoyalRoad pair whenever `vendors.rr.url` is present and
non-empty; otherwise `(none, none)`. -/
theorem pick_source_url_priority (b : Book) :
    (∀ u, b.url = some u → u ≠ "" → pick_source_url b = (some Source.goodreads, some u))
    ∧ ((b.url = none ∨ b.url = some "") → ∀ v, rr_url_of b = some v → v ≠ "" →
        pick_source_url b = (some Source.royalroad, some v))
    ∧ ((b.url = none ∨ b.url = some "") →
        (rr_url_of b = none ∨ rr_url_of b = some "") →
        pick_source_url b = (none, none)) := by
  refine ⟨?_, ?_, ?_⟩
  · intro u hu hne
    simp [pick_source_url, truthy, hu, hne]
  · rintro (h | h) v hv hne <;> simp [pick_source_url, truthy, h, hv, hne]
  · rintro (h | h) (h2 | h2) <;> simp [pick_source_url, truthy, h, h2]

/-- Witness for C1: a record carrying both a primary URL and a secondary vendor
URL resolves to the primary URL. -/
theorem pick_source_url_priority_witness :
    pick_source_url
        (Book.mk (some "gr") (some (Vendors.mk (some (RRInfo.mk (some "rr"))))) none none [])
      = (some Source.goodreads, some "gr") :=
  (pick_source_url_priority _).1 "gr" rfl (by decide)

/-- Claim C10: `_clean_float` replaces every comma (not just a decimal
separator), so the thousands-separated input "1,234.5" becomes "1.234.5" and
parsing fails instead of returning 1234.5. -/
theorem clean_float_thousands_separator :
    String.mk (commaToDot ("1,234.5").data) = "1.234.5"
    ∧ _clean_float "1,234.5" = .error ("could not convert string to float: 1.234.5") := by
  constructor
  · decide
  · decide

/-- Claim C7: `_clean_int` keeps exactly the digit characters of its input,
fails precisely when none remain, parses the kept digits in base 10
(`valDigits` agrees with `Nat.ofDigits`), and maps "12,345 ratings" to 12345. -/
theorem clean_int_spec :
    (∀ s : String, s.data.filter Char.isDigit = [] → ∃ e, _clean_int s = .error e)
    ∧ (∀ s : String, s.data.filter Char.isDigit ≠ [] →
        _clean_int s = .ok (valDigits (s.data.filter Char.isDigit)))
    ∧ (∀ l : List Char,
        valDigits l = Nat.ofDigits 10 ((l.map (fun c => c.toNat - 48)).reverse))
    ∧ _clean_int "12,345 ratings" = .ok 12345 := by
  refine ⟨?_, ?_, valDigits_eq_ofDigits, by rfl⟩
  · intro s h
    exact ⟨"Could not parse int from: " ++ s, by simp [_clean_int, h]⟩
  · intro s h
    simp [_clean_int, h]

/-- Witness for C7 at a digit-free input and at the documented example. -/
theorem clean_int_spec_witness :
    ("séance!").data.filter Char.isDigit = [] ∧ ∃ e, _clean_int "séance!" = .error e :=
  ⟨by decide, clean_int_spec.1 "séance!" (by decide)⟩

theorem stripL_cons_ws (l : List Char) : stripL (' ' :: l) = stripL l := by
  simp [stripL, List.dropWhile_cons, show isPyWs ' ' = true from by decide]

theorem stripL_append_ws (l : List Char) : stripL (l ++ [' ']) = stripL l := by
  unfold stripL
  rw [List.dropWhile_append]
  by_cases h : (l.dropWhile (fun c => isPyWs c)).isEmpty
  · rw [if_pos h]
    rw [List.isEmpty_iff] at h
    rw [h]
    simp [List.dropWhile_cons, show isPyWs ' ' = true from by decide, rdropWs]
  · rw [if_neg h]
    unfold rdropWs
    rw [List.reverse_append]
    simp [List.dropWhile_cons, show isPyWs ' ' = true from by decide]

theorem isPyWs_commaDot (c : Char) : isPyWs (if c = ',' then '.' else c) = isPyWs c := by
  by_cases h : c = ','
  · rw [if_pos h, h]
    decide
  · rw [if_neg h]

theorem stripL_commaToDot (l : List Char) :
    stripL (commaToDot l) = commaToDot (stripL l) := by
  have hp : ((fun c => isPyWs c) ∘ fun c => if c = ',' then '.' else c)
      = fun c => isPyWs c := funext fun c => isPyWs_commaDot c
  simp [stripL, commaToDot, rdropWs, ← List.map_reverse, List.dropWhile_map, hp]

theorem commaToDot_idem (l : List Char) : commaToDot (commaToDot l) = commaToDot l := by
  simp only [commaToDot, List.map_map]
  refine List.map_congr_left fun c _ => ?_
  by_cases h : c = ',' <;> simp [h]

/-- Claim C8: `_clean_float` trims surrounding whitespace, replaces commas with
periods (so applying the replacement up front changes nothing), fails exactly
when the resulting text is not a float literal, and maps "4,50" to 4.5. -/
theorem clean_float_spec :
    (∀ s : String, _clean_float (" " ++ s) = _clean_float s)
    ∧ (∀ s : String, _clean_float (s ++ " ") = _clean_float s)
    ∧ (∀ s : String, _clean_float ⟨commaToDot s.data⟩ = _clean_float s)
    ∧ (∀ s : String,
        (∃ e, _clean_float s = .error e) ↔ pyFloatL (commaToDot (stripL s.data)) = none)
    ∧ _clean_float "4,50" = .ok (9 / 2) := by
  have hc : _clean_float "4,50"
      = .ok ((((4 : ℕ) : ℚ) + ((50 : ℕ) : ℚ) / (10 : ℚ) ^ (2 : ℕ)) * 1) := rfl
  refine ⟨?_, ?_, ?_, ?_, by rw [hc]; norm_num⟩
  · intro s
    unfold _clean_float
    have hd : (" " ++ s).data = ' ' :: s.data := rfl
    rw [hd, stripL_cons_ws]
  · intro s
    unfold _clean_float
    have hd : (s ++ " ").data = s.data ++ [' '] := rfl
    rw [hd, stripL_append_ws]
  · intro s
    unfold _clean_float
    have hd : (⟨commaToDot s.data⟩ : String).data = commaToDot s.data := rfl
    rw [hd, stripL_commaToDot, commaToDot_idem]
  · intro s
    unfold _clean_float
    cases h : pyFloatL (commaToDot (stripL s.data))
    · exact ⟨fun _ => rfl, fun _ => ⟨_, rfl⟩⟩
    · refine ⟨fun he => ?_, fun hn => by simp at hn⟩
      rcases he with ⟨e, he⟩
      simp at he

/-- Witness for C8 at the documented comma-decimal example. -/
theorem clean_float_spec_witness :
    _clean_float (" " ++ "4,50") = _clean_float "4,50" :=
  clean_float_spec.1 "4,50"

theorem record_update_eq_self (b : Book) (rs cs : String)
    (heq : ({ b with rating := some rs, r_count := some cs } : Book) = b) :
    b.rating.getD "" = rs ∧ b.r_count.getD "" = cs := by
  constructor
  · have h : some rs = b.rating := congrArg Book.rating heq
    rw [← h]
    rfl
  · have h : some cs = b.r_count := congrArg Book.r_count heq
    rw [← h]
    rfl

theorem applyBook_modified_iff (cache : List (String × (String × String))) (b : Book) :
    (applyBook cache b).2 = true ↔ (applyBook cache b).1 ≠ b := by
  unfold applyBook
  cases hu : (pick_source_url b).2 with
  | none => simp
  | some u =>
    cases hc : lookupA cache u with
    | none => simp [hc]
    | some rc =>
      simp only [hc]
      by_cases h1 : b.rating.getD "" = rc.1
      · by_cases h2 : b.r_count.getD "" = rc.2
        · simp [h1, h2]
        · have hb : ({ b with rating := some rc.1, r_count := some rc.2 } : Book) ≠ b :=
            fun heq => h2 (record_update_eq_self b rc.1 rc.2 heq).2
          simp [h1, h2, hb]
      · have hb : ({ b with rating := some rc.1, r_count := some rc.2 } : Book) ≠ b :=
          fun heq => h1 (record_update_eq_self b rc.1 rc.2 heq).1
        simp [h1, hb]

/-- Claim C2: `apply_cache` maps the loop body over the records and returns
true iff some record was modified; per record, it skips when the resolved URL
is absent or not a cache key, leaves the record alone when both stored strings
already equal the cached pair (absent fields reading as ""), and otherwise
overwrites both fields with the cached pair. -/
theorem apply_cache_spec (books : List Book) (cache : List (String × (String × String))) :
    (apply_cache books cache).1 = books.map (fun b => (applyBook cache b).1)
    ∧ ((apply_cache books cache).2 = true ↔ ∃ b ∈ books, (applyBook cache b).1 ≠ b)
    ∧ (∀ b, (pick_source_url b).2 = none → applyBook cache b = ((b, false)))
    ∧ (∀ b u, (pick_source_url b).2 = some u → lookupA cache u = none →
        applyBook cache b = ((b, false)))
    ∧ (∀ b u rs cs, (pick_source_url b).2 = some u → lookupA cache u = some ((rs, cs)) →
        b.rating.getD "" = rs → b.r_count.getD "" = cs → applyBook cache b = ((b, false)))
    ∧ (∀ b u rs cs, (pick_source_url b).2 = some u → lookupA cache u = some ((rs, cs)) →
        ¬(b.rating.getD "" = rs ∧ b.r_count.getD "" = cs) →
        applyBook cache b = (({ b with rating := some rs, r_count := some cs }, true))) := by
  refine ⟨?_, ?_, ?_, ?_, ?_, ?_⟩
  · induction books with
    | nil => rfl
    | cons b bs ih => simp [apply_cache, ih]
  · induction books with
    | nil => simp [apply_cache]
    | cons b bs ih =>
      simp only [apply_cache, Bool.or_eq_true, ih, List.mem_cons]
      rw [applyBook_modified_iff]
      constructor
      · rintro (h | ⟨x, hx, hne⟩)
        · exact ⟨b, Or.inl rfl, h⟩
        · exact ⟨x, Or.inr hx, hne⟩
      · rintro ⟨x, hx | hx, hne⟩
        · exact Or.inl (hx ▸ hne)
        · exact Or.inr ⟨x, hx, hne⟩
  · intro b h
    unfold applyBook
    simp [h]
  · intro b u hu hc
    unfold applyBook
    simp [hu, hc]
  · intro b u rs cs hu hc h1 h2
    unfold applyBook
    simp [hu, hc, h1, h2]
  · intro b u rs cs hu hc hne
    unfold applyBook
    rcases not_and_or.mp hne with h | h <;> simp [hu, hc, h]

/-- Witness for C2: a cached pair differing from the stored rating overwrites
both fields and reports the record as changed. -/
theorem apply_cache_spec_witness :
    applyBook [(("u", ("4.5", "10")))] (Book.mk (some "u") none (some "4.2") (some "10") [])
      = ((Book.mk (some "u") none (some "4.5") (some "10") [], true)) :=
  (apply_cache_spec [Book.mk (some "u") none (some "4.2") (some "10") []]
      [(("u", ("4.5", "10")))]).2.2.2.2.2
    (Book.mk (some "u") none (some "4.2") (some "10") []) "u" "4.5" "10"
    (by decide) (by decide) (by decide)

theorem applyBook_frame (cache : List (String × (String × String))) (b : Book) :
    ((applyBook cache b).1.url = b.url ∧ (applyBook cache b).1.vendors = b.vendors)
    ∧ (applyBook cache b).1.extra = b.extra := by
  unfold applyBook
  cases hu : (pick_source_url b).2 with
  | none => exact ⟨⟨rfl, rfl⟩, rfl⟩
  | some u =>
    cases hc : lookupA cache u with
    | none => simp [hc]
    | some rc =>
      simp only [hc]
      by_cases hcond : (!(b.rating.getD "" == rc.1) || !(b.r_count.getD "" == rc.2)) = true
      · simp [hcond]
      · simp [hcond]

/-- Claim C9: the reconciler's frame property: `apply_cache` neither adds nor
removes records, and for each record every field other than `rating` and
`r_count` (the URL, the nested vendor structure and all extra fields) is
preserved verbatim. -/
theorem apply_cache_frame (books : List Book) (cache : List (String × (String × String))) :
    (apply_cache books cache).1.length = books.length
    ∧ List.Forall₂
        (fun b b' : Book => b'.url = b.url ∧ b'.vendors = b.vendors ∧ b'.extra = b.extra)
        books (apply_cache books cache).1 := by
  constructor
  · induction books with
    | nil => rfl
    | cons b bs ih => simp only [apply_cache, List.length_cons, ih]
  · induction books with
    | nil => exact List.Forall₂.nil
    | cons b bs ih =>
      refine List.Forall₂.cons ?_ ih
      obtain ⟨⟨h1, h2⟩, h3⟩ := applyBook_frame cache b
      exact ⟨h1, h2, h3⟩

theorem map_snd_or {α β : Type} (a b : Option (α × β)) :
    (a.or b).map Prod.snd = (a.map Prod.snd).or (b.map Prod.snd) := by
  cases a <;> rfl

theorem lookupA_append {α : Type} (m1 m2 : List (String × α)) (u : String) :
    lookupA (m1 ++ m2) u = (lookupA m1 u).or (lookupA m2 u) := by
  simp [lookupA, List.find?_append, map_snd_or]

theorem any_key_iff {α : Type} (m : List (String × α)) (k : String) :
    m.any (fun p => p.1 == k) = true ↔ (lookupA m k).isSome := by
  simp [lookupA, List.any_eq_true, List.find?_isSome]

theorem lookupA_setdefault (m : List (String × Source)) (k u : String) (v : Source) :
    lookupA (setdefault m k v) u = (lookupA m u).or (if u = k then some v else none) := by
  unfold setdefault
  by_cases h : m.any (fun p => p.1 == k) = true
  · rw [if_pos h]
    by_cases hk : u = k
    · subst hk
      rcases Option.isSome_iff_exists.mp ((any_key_iff m u).mp h) with ⟨s, hs⟩
      rw [hs, if_pos rfl]
      rfl
    · rw [if_neg hk, Option.or_none]
  · rw [if_neg h, lookupA_append]
    congr 1
    by_cases hk : u = k
    · subst hk
      simp [lookupA]
    · rw [if_neg hk]
      simp [lookupA, List.find?_cons, show (k == u) = false from beq_false_of_ne (Ne.symm hk)]

theorem buildAux_lookup (bs : List Book) (acc : List (String × Source)) (u : String) :
    lookupA (bs.foldl buildStep acc) u
      = (lookupA acc u).or
          (((resolvedPairs bs).find? (fun p => p.1 == u)).map Prod.snd) := by
  induction bs generalizing acc with
  | nil => simp [resolvedPairs, Option.or_none, lookupA]
  | cons b bs ih =>
    rw [List.foldl_cons]
    cases hp : pick_source_url b with
    | mk os ou =>
      cases os with
      | none =>
        have hstep : buildStep acc b = acc := by
          unfold buildStep
          rw [hp]
        have hres : resolvedPairs (b :: bs) = resolvedPairs bs := by
          unfold resolvedPairs
          rw [List.filterMap_cons]
          cases ou <;> simp [hp]
        rw [hstep, hres, ih]
      | some src =>
        cases ou with
        | none =>
          have hstep : buildStep acc b = acc := by
            unfold buildStep
            rw [hp]
          have hres : resolvedPairs (b :: bs) = resolvedPairs bs := by
            unfold resolvedPairs
            rw [List.filterMap_cons]
            simp [hp]
          rw [hstep, hres, ih]
        | some url =>
          have hstep : buildStep acc b = setdefault acc url src := by
            unfold buildStep
            rw [hp]
          have hres : resolvedPairs (b :: bs) = ((url, src)) :: resolvedPairs bs := by
            unfold resolvedPairs
            rw [List.filterMap_cons]
            simp [hp]
          rw [hstep, hres, ih, lookupA_setdefault]
          by_cases hk : u = url
          · subst hk
            rw [if_pos rfl, List.find?_cons_of_pos _ (by simp), Option.or_assoc]
            rfl
          · rw [if_neg hk, Option.or_none, List.find?_cons_of_neg _ (by simpa using Ne.symm hk)]

theorem buildAux_nodup (bs : List Book) (acc : List (String × Source))
    (h : (acc.map Prod.fst).Nodup) : ((bs.foldl buildStep acc).map Prod.fst).Nodup := by
  induction bs generalizing acc with
  | nil => exact h
  | cons b bs ih =>
    rw [List.foldl_cons]
    refine ih _ ?_
    cases hp : pick_source_url b with
    | mk os ou =>
      cases os with
      | none =>
        have hstep : buildStep acc b = acc := by
          unfold buildStep
          rw [hp]
        rw [hstep]
        exact h
      | some src =>
        cases ou with
        | none =>
          have hstep : buildStep acc b = acc := by
            unfold buildStep
            rw [hp]
          rw [hstep]
          exact h
        | some url =>
          have hstep : buildStep acc b = setdefault acc url src := by
            unfold buildStep
            rw [hp]
          rw [hstep]
          unfold setdefault
          by_cases hin : acc.any (fun p => p.1 == url) = true
          · rw [if_pos hin]
            exact h
          · rw [if_neg hin]
            have hnotin : url ∉ acc.map Prod.fst := by
              intro hmem
              apply hin
              rw [List.any_eq_true]
              rcases List.mem_map.mp hmem with ⟨p, hpmem, hpfst⟩
              exact ⟨p, hpmem, by simp [hpfst]⟩
            simp [List.nodup_append, h, hnotin]

/-- Claim C4: `build_targets` produces a duplicate-free work list; each URL
maps to the source resolved from the first record (in catalog-concatenation
order) that resolves to it, and unresolvable records contribute nothing. -/
theorem build_targets_spec (bs : List Book) :
    ((build_targets bs).map Prod.fst).Nodup
    ∧ (∀ u, lookupA (build_targets bs) u
        = ((resolvedPairs bs).find? (fun p => p.1 == u)).map Prod.snd)
    ∧ (∀ b, pick_source_url b = ((none, none)) →
        build_targets (bs ++ [b]) = build_targets bs) := by
  refine ⟨buildAux_nodup bs [] List.nodup_nil, fun u => ?_, fun b hb => ?_⟩
  · rw [build_targets, buildAux_lookup]
    rfl
  · rw [build_targets, build_targets, List.foldl_append]
    show buildStep _ b = _
    unfold buildStep
    rw [hb]

/-- Witness for C4: appending a record with no resolvable target leaves the
work list unchanged. -/
theorem build_targets_spec_witness :
    build_targets ([Book.mk (some "u") none none none []] ++ [Book.mk none none none none []])
      = build_targets [Book.mk (some "u") none none none []] :=
  (build_targets_spec [Book.mk (some "u") none none none []]).2.2
    (Book.mk none none none none []) (by decide)

theorem scrape_targets_fst (g r : String → Except String (ℚ × Nat))
    (targets : List (String × Source)) :
    (scrape_targets g r targets).1 = targets.filterMap (fun p =>
        match dispatchExtract g r p.1 p.2 with
        | .ok rc => some ((p.1, (_format_rating rc.1, natStr rc.2)))
        | .error _ => none) := by
  induction targets with
  | nil => rfl
  | cons p rest ih =>
    obtain ⟨url, source⟩ := p
    rw [List.filterMap_cons]
    cases hd : dispatchExtract g r url source with
    | ok rc =>
      obtain ⟨rating, count⟩ := rc
      simp only [scrape_targets, hd, ih]
    | error e => simp only [scrape_targets, hd, ih]

theorem scrape_targets_snd (g r : String → Except String (ℚ × Nat))
    (targets : List (String × Source)) :
    (scrape_targets g r targets).2 = (targets.filter (fun p =>
        match dispatchExtract g r p.1 p.2 with
        | .ok _ => false
        | .error _ => true)).length := by
  induction targets with
  | nil => rfl
  | cons p rest ih =>
    obtain ⟨url, source⟩ := p
    rw [List.filter_cons]
    cases hd : dispatchExtract g r url source with
    | ok rc =>
      obtain ⟨rating, count⟩ := rc
      simp only [scrape_targets, hd, ih]
      simp
    | error e =>
      simp only [scrape_targets, hd, ih]
      simp

/-- Claim C3: the scrape driver never aborts: every failure is swallowed and
counted, the returned cache holds exactly the successfully extracted URLs,
each mapped to the fully populated pair `(format_rating rating, str count)`,
and cache keys come from the work list. -/
theorem scrape_targets_spec (g r : String → Except String (ℚ × Nat))
    (targets : List (String × Source)) :
    (scrape_targets g r targets).1 = targets.filterMap (fun p =>
        match dispatchExtract g r p.1 p.2 with
        | .ok rc => some ((p.1, (_format_rating rc.1, natStr rc.2)))
        | .error _ => none)
    ∧ (scrape_targets g r targets).2 = (targets.filter (fun p =>
        match dispatchExtract g r p.1 p.2 with
        | .ok _ => false
        | .error _ => true)).length
    ∧ (∀ u, u ∈ (scrape_targets g r targets).1.map Prod.fst →
        u ∈ targets.map Prod.fst) := by
  refine ⟨scrape_targets_fst g r targets, scrape_targets_snd g r targets, ?_⟩
  intro u hu
  rw [scrape_targets_fst] at hu
  simp only [List.mem_map, List.mem_filterMap] at hu ⊢
  rcases hu with ⟨q, ⟨p, hp, hq⟩, hqu⟩
  refine ⟨p, hp, ?_⟩
  cases hd : dispatchExtract g r p.1 p.2 with
  | ok rc =>
    rw [hd] at hq
    simp only [Option.some.injEq] at hq
    rw [← hq] at hqu
    exact hqu
  | error e =>
    rw [hd] at hq
    simp at hq

/-- Witness for C3: with a failing second target, the first URL is still a
cache key drawn from the work list. -/
theorem scrape_targets_spec_witness :
    "a" ∈ ([(("a", Source.goodreads)), (("b", Source.royalroad))].map
        (Prod.fst (α := String) (β := Source))) :=
  (scrape_targets_spec (fun _ => .ok ((9 / 2, 3))) (fun _ => .error "boom")
      [(("a", Source.goodreads)), (("b", Source.royalroad))]).2.2 "a" (by decide)

theorem toNat_ofNat_valid (n : Nat) (h : n.isValidChar) : (Char.ofNat n).toNat = n := by
  unfold Char.ofNat
  rw [dif_pos h]
  rfl

theorem isPyWs_lowerChar (c : Char) : isPyWs (lowerChar c) = isPyWs c := by
  unfold lowerChar
  by_cases h : 65 ≤ c.toNat ∧ c.toNat ≤ 90
  · rw [if_pos h]
    have hv : (Char.ofNat (c.toNat + 32)).toNat = c.toNat + 32 :=
      toNat_ofNat_valid _ (Or.inl (by omega))
    have h1 : isPyWs (Char.ofNat (c.toNat + 32)) = false := by
      simp only [isPyWs, hv, Bool.or_eq_false_iff, decide_eq_false_iff_not]
      omega
    have h2 : isPyWs c = false := by
      simp only [isPyWs, Bool.or_eq_false_iff, decide_eq_false_iff_not]
      omega
    rw [h1, h2]
  · rw [if_neg h]

theorem collapseA_true_head (l : List Char) :
    ∀ x xs, collapseA true l = x :: xs → isPyWs x = false := by
  induction l with
  | nil =>
    intro x xs h
    simp [collapseA] at h
  | cons c cs ih =>
    intro x xs h
    by_cases hc : isPyWs c = true
    · rw [show collapseA true (c :: cs) = collapseA true cs from by simp [collapseA, hc]] at h
      exact ih x xs h
    · rw [show collapseA true (c :: cs) = c :: collapseA false cs from by
        simp [collapseA, hc]] at h
      injection h with h1 h2
      rw [← h1]
      exact Bool.not_eq_true _ |>.mp hc

theorem collapseA_wsOnly (l : List Char) :
    ∀ b, ∀ c ∈ collapseA b l, isPyWs c = true → c = ' ' := by
  induction l with
  | nil =>
    intro b c hc
    simp [collapseA] at hc
  | cons a as ih =>
    intro b c hc hws
    by_cases ha : isPyWs a = true
    · cases b with
      | true =>
        rw [show collapseA true (a :: as) = collapseA true as from by simp [collapseA, ha]] at hc
        exact ih true c hc hws
      | false =>
        rw [show collapseA false (a :: as) = ' ' :: collapseA true as from by
          simp [collapseA, ha]] at hc
        rcases List.mem_cons.mp hc with h | h
        · exact h
        · exact ih true c h hws
    · rw [show collapseA b (a :: as) = a :: collapseA false as from by simp [collapseA, ha]] at hc
      rcases List.mem_cons.mp hc with h | h
      · subst h
        exact absurd hws ha
      · exact ih false c h hws

theorem collapseA_chain (l : List Char) :
    ∀ b, List.Chain' (fun x y => ¬(isPyWs x = true ∧ isPyWs y = true)) (collapseA b l) := by
  induction l with
  | nil =>
    intro b
    simp [collapseA]
  | cons a as ih =>
    intro b
    by_cases ha : isPyWs a = true
    · cases b with
      | true =>
        rw [show collapseA true (a :: as) = collapseA true as from by simp [collapseA, ha]]
        exact ih true
      | false =>
        rw [show collapseA false (a :: as) = ' ' :: collapseA true as from by
          simp [collapseA, ha]]
        cases hX : collapseA true as with
        | nil => simp
        | cons x xs =>
          rw [List.chain'_cons]
          refine ⟨?_, by rw [← hX]; exact ih true⟩
          rintro ⟨_, hx⟩
          rw [collapseA_true_head as x xs hX] at hx
          cases hx
    · rw [show collapseA b (a :: as) = a :: collapseA false as from by simp [collapseA, ha]]
      cases hX : collapseA false as with
      | nil => simp
      | cons x xs =>
        rw [List.chain'_cons]
        refine ⟨?_, by rw [← hX]; exact ih false⟩
        rintro ⟨hax, _⟩
        exact ha hax

theorem rdropWs_front (m : List Char) : rdropWs m <+: m := by
  unfold rdropWs
  rcases List.dropWhile_suffix (l := m.reverse) (fun c => isPyWs c) with ⟨s, hs⟩
  refine ⟨s.reverse, ?_⟩
  rw [← List.reverse_append, hs, List.reverse_reverse]

theorem stripL_part (l : List Char) : stripL l <:+: l := by
  unfold stripL
  rcases rdropWs_front (l.dropWhile (fun c => isPyWs c)) with ⟨t, ht⟩
  rcases List.dropWhile_suffix (l := l) (fun c => isPyWs c) with ⟨s, hs⟩
  refine ⟨s, t, ?_⟩
  rw [List.append_assoc, ht, hs]

theorem stripL_getLast_not_ws (l : List Char) :
    ∀ x, (stripL l).getLast? = some x → isPyWs x = false := by
  intro x hx
  unfold stripL rdropWs at hx
  rw [List.getLast?_eq_head?_reverse, List.reverse_reverse] at hx
  have hh := List.head?_dropWhile_not (fun c => isPyWs c)
    ((l.dropWhile (fun c => isPyWs c)).reverse)
  rw [hx] at hh
  exact hh

theorem map_lowerChar_wsOnly (m : List Char)
    (h : ∀ c ∈ m, isPyWs c = true → c = ' ') :
    ∀ c ∈ m.map lowerChar, isPyWs c = true → c = ' ' := by
  intro c hc hws
  rcases List.mem_map.mp hc with ⟨a, ha, rfl⟩
  rw [isPyWs_lowerChar] at hws
  rw [h a ha hws]
  decide

theorem map_lowerChar_chain (m : List Char)
    (h : List.Chain' (fun x y => ¬(isPyWs x = true ∧ isPyWs y = true)) m) :
    List.Chain' (fun x y => ¬(isPyWs x = true ∧ isPyWs y = true)) (m.map lowerChar) := by
  rw [List.chain'_map]
  refine h.imp ?_
  rintro a b hab ⟨ha, hb⟩
  rw [isPyWs_lowerChar] at ha hb
  exact hab ⟨ha, hb⟩

theorem map_lowerChar_getLast (m : List Char)
    (h : ∀ x, m.getLast? = some x → isPyWs x = false) :
    ∀ x, (m.map lowerChar).getLast? = some x → isPyWs x = false := by
  intro x hx
  rw [List.getLast?_map] at hx
  rcases Option.map_eq_some'.mp hx with ⟨a, ha, hfa⟩
  rw [← hfa, isPyWs_lowerChar]
  exact h a ha

theorem normKey_wsOnly (k : String) :
    ∀ c ∈ (normKey k).data, isPyWs c = true → c = ' ' := by
  have hs : ∀ c ∈ stripL (collapseA false k.data), isPyWs c = true → c = ' ' :=
    fun c hc => collapseA_wsOnly k.data false c ((stripL_part _).sublist.subset hc)
  exact map_lowerChar_wsOnly _ hs

theorem normKey_chain (k : String) :
    List.Chain' (fun x y => ¬(isPyWs x = true ∧ isPyWs y = true)) (normKey k).data := by
  have hs := List.Chain'.infix (collapseA_chain k.data false)
    (stripL_part (collapseA false k.data))
  exact map_lowerChar_chain _ hs

theorem normKey_getLast_not_ws (k : String) :
    ∀ x, (normKey k).data.getLast? = some x → isPyWs x = false :=
  map_lowerChar_getLast _ (stripL_getLast_not_ws (collapseA false k.data))

theorem ratings_label_chars (kn : List Char)
    (hA : ∀ c ∈ kn, isPyWs c = true → c = ' ')
    (hB : List.Chain' (fun x y => ¬(isPyWs x = true ∧ isPyWs y = true)) kn)
    (hC : ∀ x, kn.getLast? = some x → isPyWs x = false) :
    (kn = "ratings :".data ∨ kn = "ratings:".data ∨ kn = "ratings".data)
      ↔ rdropWs (stripTrailingColon kn) = "ratings".data := by
  constructor
  · rintro (h | h | h) <;> subst h <;> decide
  · intro h
    cases hr : kn.reverse with
    | nil =>
      rw [List.reverse_eq_nil_iff] at hr
      subst hr
      simp [stripTrailingColon, rdropWs] at h
    | cons c t =>
      have hkn : kn = t.reverse ++ [c] := by
        have h0 := congrArg List.reverse hr
        rwa [List.reverse_reverse, List.reverse_cons] at h0
      by_cases hc : c = ':'
      · subst hc
        have hst : stripTrailingColon kn = t.reverse := by
          unfold stripTrailingColon
          rw [hr]
          split
          · rename_i t' heq
            injection heq with h1 h2
            exact congrArg List.reverse h2.symm
          · rename_i hne
            exact absurd rfl (hne t)
        rw [hst] at h
        have hdrop : t.dropWhile (fun c => isPyWs c) = "ratings".data.reverse := by
          unfold rdropWs at h
          rw [List.reverse_reverse] at h
          have h2 := congrArg List.reverse h
          rwa [List.reverse_reverse] at h2
        have htw : t.takeWhile (fun c => isPyWs c) ++ "ratings".data.reverse = t := by
          rw [← hdrop]
          exact List.takeWhile_append_dropWhile _ t
        have hkn2 : kn = ("ratings".data ++ (t.takeWhile (fun c => isPyWs c)).reverse) ++ [':'] := by
          rw [hkn]
          have h3 : t.reverse
              = "ratings".data ++ (t.takeWhile (fun c => isPyWs c)).reverse := by
            conv_lhs => rw [← htw]
            rw [List.reverse_append, List.reverse_reverse]
          rw [h3]
        cases hw : t.takeWhile (fun c => isPyWs c) with
        | nil =>
          rw [hw] at hkn2
          right; left
          rw [hkn2]
          decide
        | cons a w' =>
          rw [hw] at hkn2
          have ha : isPyWs a = true := by
            have hmem : a ∈ t.takeWhile (fun c => isPyWs c) := by
              rw [hw]
              exact List.mem_cons_self a w'
            exact List.mem_takeWhile_imp hmem
          have hamem : a ∈ kn := by
            rw [hkn2]
            simp
          have ha' : a = ' ' := hA a hamem ha
          cases w' with
          | nil =>
            subst ha'
            left
            rw [hkn2]
            decide
          | cons b w'' =>
            have hb : isPyWs b = true := by
              have hmem : b ∈ t.takeWhile (fun c => isPyWs c) := by
                rw [hw]
                simp
              exact List.mem_takeWhile_imp hmem
            have hbamem : [b, a] <:+: kn := by
              refine ⟨"ratings".data ++ w''.reverse, [':'], ?_⟩
              rw [hkn2]
              simp [List.reverse_cons, List.append_assoc]
            have hch := List.Chain'.infix hB hbamem
            rw [List.chain'_cons] at hch
            exact absurd ⟨hb, ha⟩ hch.1
      · have hst : stripTrailingColon kn = kn := by
          unfold stripTrailingColon
          rw [hr]
          split
          · rename_i heq
            injection heq with h1 h2
            exact absurd h1 hc
          · rfl
        rw [hst] at h
        have hcw : isPyWs c = false := by
          apply hC
          rw [List.getLast?_eq_head?_reverse, hr]
          rfl
        have hdr : kn.reverse.dropWhile (fun c => isPyWs c) = kn.reverse := by
          rw [hr, List.dropWhile_cons]
          simp [hcw]
        unfold rdropWs at h
        rw [hdr, List.reverse_reverse] at h
        right; right
        exact h

theorem isRatingsLabel_iff_specNorm (k : String) :
    isRatingsLabel k = (specNormKey k == "ratings") := by
  rw [Bool.eq_iff_iff]
  have hiff := ratings_label_chars (normKey k).data (normKey_wsOnly k) (normKey_chain k)
    (normKey_getLast_not_ws k)
  constructor
  · intro h
    have h3 : (normKey k).data = "ratings :".data ∨ (normKey k).data = "ratings:".data
        ∨ (normKey k).data = "ratings".data := by
      simp only [isRatingsLabel, Bool.or_eq_true, beq_iff_eq] at h
      rcases h with (h | h) | h
      · exact Or.inl (congrArg String.data h)
      · exact Or.inr (Or.inl (congrArg String.data h))
      · exact Or.inr (Or.inr (congrArg String.data h))
    have h4 := hiff.mp h3
    rw [beq_iff_eq]
    show String.mk (rdropWs (stripTrailingColon (normKey k).data)) = "ratings"
    rw [h4]
  · intro h
    rw [beq_iff_eq] at h
    have h4 : rdropWs (stripTrailingColon (normKey k).data) = "ratings".data :=
      congrArg String.data h
    have h3 := hiff.mpr h4
    simp only [isRatingsLabel, Bool.or_eq_true, beq_iff_eq]
    rcases h3 with h3 | h3 | h3
    · exact Or.inl (Or.inl (String.ext h3))
    · exact Or.inl (Or.inr (String.ext h3))
    · exact Or.inr (String.ext h3)

theorem scanRatings_found : ∀ (lis : List String) (j : Nat) (hj : j + 1 < lis.length),
    isRatingsLabel (lis.get ⟨j, by omega⟩) = true →
    (∀ i (hi : i < j), isRatingsLabel (lis.get ⟨i, by omega⟩) = false) →
    scanRatings lis = _clean_int (lis.get ⟨j + 1, hj⟩) := by
  intro lis
  induction lis with
  | nil =>
    intro j hj
    simp at hj
  | cons k rest ih =>
    intro j hj hlab hfirst
    cases j with
    | zero =>
      cases rest with
      | nil => simp at hj
      | cons v rest' =>
        have hk : isRatingsLabel k = true := hlab
        simp [scanRatings, hk]
    | succ j' =>
      have hk : isRatingsLabel k = false := hfirst 0 (by omega)
      cases rest with
      | nil => simp at hj
      | cons v rest' =>
        rw [show scanRatings (k :: v :: rest') = scanRatings (v :: rest') from by
          simp [scanRatings, hk]]
        have hj2 : j' + 1 < (v :: rest').length := by
          simp at hj ⊢
          omega
        have hlab2 : isRatingsLabel ((v :: rest').get ⟨j', by omega⟩) = true := hlab
        have hfirst2 : ∀ i (hi : i < j'),
            isRatingsLabel ((v :: rest').get ⟨i, by omega⟩) = false :=
          fun i hi => hfirst (i + 1) (by omega)
        exact ih j' hj2 hlab2 hfirst2

theorem scanRatings_missing : ∀ lis : List String,
    (∀ i (hi : i + 1 < lis.length), isRatingsLabel (lis.get ⟨i, by omega⟩) = false) →
    scanRatings lis = .error rrCountMsg := by
  intro lis
  induction lis with
  | nil => intro h; rfl
  | cons k rest ih =>
    intro h
    cases rest with
    | nil => rfl
    | cons v rest' =>
      have hk : isRatingsLabel k = false := h 0 (by simp)
      rw [show scanRatings (k :: v :: rest') = scanRatings (v :: rest') from by
        simp [scanRatings, hk]]
      exact ih fun i hi => h (i + 1) (by simp at hi ⊢; omega)

/-- Claim C5: the RoyalRoad ratings-count rule: an item is a Ratings label
exactly when its normalized text (whitespace-collapsed, case-folded, trailing
colon stripped, as in `specNormKey`) equals "ratings"; the scan parses the
item immediately following the first such label with `_clean_int`, and fails
with the ratings-count-not-found error when no label with a following item
exists. -/
theorem scrape_royalroad_ratings_count :
    (∀ k, isRatingsLabel k = (specNormKey k == "ratings"))
    ∧ (∀ (lis : List String) (j : Nat) (hj : j + 1 < lis.length),
        isRatingsLabel (lis.get ⟨j, by omega⟩) = true →
        (∀ i (hi : i < j), isRatingsLabel (lis.get ⟨i, by omega⟩) = false) →
        scanRatings lis = _clean_int (lis.get ⟨j + 1, hj⟩))
    ∧ (∀ lis : List String,
        (∀ i (hi : i + 1 < lis.length), isRatingsLabel (lis.get ⟨i, by omega⟩) = false) →
        scanRatings lis = .error rrCountMsg) :=
  ⟨isRatingsLabel_iff_specNorm, scanRatings_found, scanRatings_missing⟩

/-- Witness for C5: a stats list whose third item is a decorated Ratings label
parses the following item, yielding 1234. -/
theorem scrape_royalroad_ratings_count_witness :
    scanRatings ["Followers :", "123", "RATINGS :", "1,234", "Pages :"] = _clean_int "1,234"
    ∧ _clean_int "1,234" = .ok 1234 :=
  ⟨scrape_royalroad_ratings_count.2.1 ["Followers :", "123", "RATINGS :", "1,234", "Pages :"]
      2 (by decide) (by decide) (by decide),
    by decide⟩

theorem digitChar_facts (d : Nat) (h : d < 10) :
    (digitChar d).isDigit = true ∧ isPyWs (digitChar d) = false ∧ digitChar d ≠ ','
      ∧ digitChar d ≠ '.' ∧ digitChar d ≠ '+' ∧ digitChar d ≠ '-'
      ∧ ((digitChar d == '0') = decide (d = 0)) := by
  interval_cases d <;> exact ⟨by decide, by decide, by decide, by decide, by decide, by decide,
    by decide⟩

theorem decAux_append (n : Nat) : ∀ acc, decAux n acc = decAux n [] ++ acc := by
  induction n using Nat.strong_induction_on with
  | _ n ih =>
    intro acc
    by_cases h : n < 10
    · simp [decAux, h]
    · have hlt : n / 10 < n := Nat.div_lt_self (by omega) (by omega)
      conv_lhs => rw [decAux]
      conv_rhs => rw [decAux]
      rw [dif_neg h, dif_neg h, ih (n / 10) hlt (digitChar (n % 10) :: acc),
        ih (n / 10) hlt (digitChar (n % 10) :: [])]
      rw [List.append_assoc]
      rfl

theorem decDigits_cons_of_ge (n : Nat) (h : ¬n < 10) :
    decDigits n = decDigits (n / 10) ++ [digitChar (n % 10)] := by
  rw [decDigits, decAux, dif_neg h, decAux_append]
  rfl

theorem decDigits_of_lt (n : Nat) (h : n < 10) : decDigits n = [digitChar n] := by
  rw [decDigits, decAux, dif_pos h]

theorem decDigits_mem (n : Nat) : ∀ c ∈ decDigits n, ∃ d, d < 10 ∧ c = digitChar d := by
  induction n using Nat.strong_induction_on with
  | _ n ih =>
    intro c hc
    by_cases h : n < 10
    · rw [decDigits_of_lt n h] at hc
      rcases List.mem_singleton.mp hc with rfl
      exact ⟨n, h, rfl⟩
    · rw [decDigits_cons_of_ge n h] at hc
      rcases List.mem_append.mp hc with h2 | h2
      · exact ih (n / 10) (Nat.div_lt_self (by omega) (by omega)) c h2
      · rcases List.mem_singleton.mp h2 with rfl
        exact ⟨n % 10, by omega, rfl⟩

theorem decDigits_ne_nil (n : Nat) : decDigits n ≠ [] := by
  by_cases h : n < 10
  · rw [decDigits_of_lt n h]
    simp
  · rw [decDigits_cons_of_ge n h]
    simp

theorem valDigits_decDigits (n : Nat) : valDigits (decDigits n) = n := by
  induction n using Nat.strong_induction_on with
  | _ n ih =>
    by_cases h : n < 10
    · rw [decDigits_of_lt n h]
      show 10 * 0 + ((digitChar n).toNat - 48) = n
      have ht : (digitChar n).toNat = 48 + n :=
        toNat_ofNat_valid (48 + n) (Or.inl (by omega))
      rw [ht]
      omega
    · rw [decDigits_cons_of_ge n h, valDigits_append_singleton,
        ih (n / 10) (Nat.div_lt_self (by omega) (by omega))]
      have ht : (digitChar (n % 10)).toNat = 48 + n % 10 :=
        toNat_ofNat_valid (48 + n % 10) (Or.inl (by omega))
      rw [ht]
      omega

theorem decDigits_all_digit (n : Nat) : ∀ c ∈ decDigits n, c.isDigit = true := by
  intro c hc
  rcases decDigits_mem n c hc with ⟨d, hd, rfl⟩
  exact (digitChar_facts d hd).1

theorem takeWhile_digits (l : List Char) (h : ∀ c ∈ l, c.isDigit = true) :
    l.takeWhile Char.isDigit = l := by
  induction l with
  | nil => rfl
  | cons a t ih =>
    simp [List.takeWhile_cons, h a (List.mem_cons_self a t),
      ih fun c hc => h c (List.mem_cons_of_mem a hc)]
theorem dropWhile_digits (l : List Char) (h : ∀ c ∈ l, c.isDigit = true) :
    l.dropWhile Char.isDigit = [] := by
  induction l with
  | nil => rfl
  | cons a t ih =>
    simp [List.dropWhile_cons, h a (List.mem_cons_self a t),
      ih fun c hc => h c (List.mem_cons_of_mem a hc)]
theorem parseMantissa_digits (D : List Char) (hne : D ≠ [])
    (hd : ∀ c ∈ D, c.isDigit = true) :
    parseMantissa D = some (((valDigits D : ℚ), [])) := by
  unfold parseMantissa
  rw [takeWhile_digits D hd, dropWhile_digits D hd]
  simp [hne]

theorem parseMantissa_digits_dot (D F : List Char) (hne : D ≠ [])
    (hd : ∀ c ∈ D, c.isDigit = true) (hf : ∀ c ∈ F, c.isDigit = true) :
    parseMantissa (D ++ '.' :: F)
      = some ((((valDigits D : ℚ) + (valDigits F : ℚ) / (10 : ℚ) ^ F.length, []))) := by
  have hdot : ('.').isDigit = false := by decide
  unfold parseMantissa
  have h1 : (D ++ '.' :: F).takeWhile Char.isDigit = D := by
    rw [List.takeWhile_append_of_pos hd, List.takeWhile_cons, hdot]
    simp
  have h2 : (D ++ '.' :: F).dropWhile Char.isDigit = '.' :: F := by
    rw [List.dropWhile_append_of_pos hd, List.dropWhile_cons, hdot]
    simp
  rw [h1, h2]
  dsimp only
  split
  · rename_i r2 heq
    injection heq with hh ht
    subst ht
    rw [takeWhile_digits F hf, dropWhile_digits F hf]
    simp [hne]
  · rename_i hne2
    exact absurd rfl (hne2 F)

theorem pyFloatCore_digits (D : List Char) (hne : D ≠ [])
    (hd : ∀ c ∈ D, c.isDigit = true) :
    pyFloatCore D = some ((valDigits D : ℚ)) := by
  unfold pyFloatCore
  rw [parseMantissa_digits D hne hd]
  show some ((valDigits D : ℚ) * 1) = some ((valDigits D : ℚ))
  rw [mul_one]

theorem pyFloatCore_digits_dot (D F : List Char) (hne : D ≠ [])
    (hd : ∀ c ∈ D, c.isDigit = true) (hf : ∀ c ∈ F, c.isDigit = true) :
    pyFloatCore (D ++ '.' :: F)
      = some ((valDigits D : ℚ) + (valDigits F : ℚ) / (10 : ℚ) ^ F.length) := by
  unfold pyFloatCore
  rw [parseMantissa_digits_dot D F hne hd hf]
  show some (((valDigits D : ℚ) + (valDigits F : ℚ) / (10 : ℚ) ^ F.length) * 1) = _
  rw [mul_one]

theorem pyFloatL_digit_head (c : Char) (t : List Char) (hc : c.isDigit = true) :
    pyFloatL (c :: t) = pyFloatCore (c :: t) := by
  have h1 : c ≠ '+' := by
    intro he
    rw [he] at hc
    exact absurd hc (by decide)
  have h2 : c ≠ '-' := by
    intro he
    rw [he] at hc
    exact absurd hc (by decide)
  unfold pyFloatL
  dsimp only
  rw [if_neg h1, if_neg h2]

theorem dropWhile_id_of_not (p : Char → Bool) (l : List Char)
    (h : ∀ c ∈ l, p c = false) : l.dropWhile p = l := by
  cases l with
  | nil => rfl
  | cons a t =>
    rw [List.dropWhile_cons_of_neg]
    rw [h a (List.mem_cons_self a t)]
    simp

theorem stripL_id_of (l : List Char) (h : ∀ c ∈ l, isPyWs c = false) : stripL l = l := by
  unfold stripL rdropWs
  rw [dropWhile_id_of_not _ l h,
    dropWhile_id_of_not _ l.reverse (fun c hc => h c (List.mem_reverse.mp hc)),
    List.reverse_reverse]

theorem commaToDot_id_of (l : List Char) (h : ∀ c ∈ l, c ≠ ',') : commaToDot l = l := by
  unfold commaToDot
  have hcg : ∀ c ∈ l, (if c = ',' then '.' else c) = id c := fun c hc => by
    rw [if_neg (h c hc)]
    rfl
  rw [List.map_congr_left hcg, List.map_id]

theorem clean_float_of_core (l : List Char) (c : Char) (t : List Char) (hl : l = c :: t)
    (hws : ∀ x ∈ l, isPyWs x = false) (hcm : ∀ x ∈ l, x ≠ ',')
    (hc : c.isDigit = true) (q : ℚ) (hp : pyFloatCore l = some q) :
    _clean_float ⟨l⟩ = .ok q := by
  unfold _clean_float
  have hd : (⟨l⟩ : String).data = l := rfl
  rw [hd, stripL_id_of l hws, commaToDot_id_of l hcm, hl, pyFloatL_digit_head c t hc, ← hl, hp]

theorem rstripChar_last_ne (c a : Char) (l : List Char) (h : (a == c) = false) :
    rstripChar c (l ++ [a]) = l ++ [a] := by
  unfold rstripChar
  have e1 : (l ++ [a]).reverse = a :: l.reverse := by simp
  rw [e1, List.dropWhile_cons_of_neg (by rw [h]; simp), ← e1, List.reverse_reverse]

theorem pad2_zero : pad2 0 = ['0', '0'] := by
  unfold pad2
  rw [if_pos (by omega), decDigits_of_lt 0 (by omega)]
  rfl

theorem valDigits_single (d : Nat) (h : d < 10) : valDigits [digitChar d] = d := by
  have ht : (digitChar d).toNat = 48 + d := toNat_ofNat_valid (48 + d) (Or.inl (by omega))
  show 10 * 0 + ((digitChar d).toNat - 48) = d
  rw [ht]
  omega

theorem valDigits_pair (d e : Nat) (hd : d < 10) (he : e < 10) :
    valDigits [digitChar d, digitChar e] = 10 * d + e := by
  have ht1 : (digitChar d).toNat = 48 + d := toNat_ofNat_valid (48 + d) (Or.inl (by omega))
  have ht2 : (digitChar e).toNat = 48 + e := toNat_ofNat_valid (48 + e) (Or.inl (by omega))
  show 10 * (10 * 0 + ((digitChar d).toNat - 48)) + ((digitChar e).toNat - 48) = 10 * d + e
  rw [ht1, ht2]
  omega

theorem decDigits_two (r : Nat) (h1 : ¬r < 10) (h2 : r / 10 < 10) :
    decDigits r = [digitChar (r / 10), digitChar (r % 10)] := by
  rw [decDigits_cons_of_ge r h1, decDigits_of_lt _ h2]
  rfl

theorem stripped_case0 (N : Nat) (h : N % 100 = 0) :
    rstripChar '.' (rstripChar '0' (natFixed2 N)) = decDigits (N / 100) := by
  unfold natFixed2
  rw [h, pad2_zero]
  have hs0 : rstripChar '0' (decDigits (N / 100) ++ '.' :: ['0', '0'])
      = decDigits (N / 100) ++ ['.'] := by
    unfold rstripChar
    have e1 : (decDigits (N / 100) ++ '.' :: ['0', '0']).reverse
        = '0' :: '0' :: '.' :: (decDigits (N / 100)).reverse := by
      simp
    rw [e1, List.dropWhile_cons_of_pos (by decide), List.dropWhile_cons_of_pos (by decide),
      List.dropWhile_cons_of_neg (by decide)]
    simp
  rw [hs0]
  have hs1 : rstripChar '.' (decDigits (N / 100) ++ ['.']) = decDigits (N / 100) := by
    unfold rstripChar
    have e1 : (decDigits (N / 100) ++ ['.']).reverse
        = '.' :: (decDigits (N / 100)).reverse := by
      simp
    rw [e1, List.dropWhile_cons_of_pos (by decide)]
    rw [dropWhile_id_of_not _ _ ?hnd]
    case hnd =>
      intro x hx
      rcases decDigits_mem _ x (List.mem_reverse.mp hx) with ⟨d, hd, rfl⟩
      exact beq_eq_false_iff_ne.mpr (digitChar_facts d hd).2.2.2.1
    rw [List.reverse_reverse]
  rw [hs1]

theorem stripped_case10 (N : Nat) (h0 : N % 100 ≠ 0) (h10 : N % 100 % 10 = 0) :
    rstripChar '.' (rstripChar '0' (natFixed2 N))
      = decDigits (N / 100) ++ '.' :: [digitChar (N % 100 / 10)] := by
  have hge : ¬N % 100 < 10 := by omega
  have hq : N % 100 / 10 < 10 := by omega
  have hqne : N % 100 / 10 ≠ 0 := by omega
  have hp : pad2 (N % 100) = [digitChar (N % 100 / 10), '0'] := by
    unfold pad2
    rw [if_neg hge, decDigits_two _ hge hq, h10]
    rfl
  unfold natFixed2
  rw [hp]
  have hd1 : (digitChar (N % 100 / 10) == '0') = false := by
    rw [(digitChar_facts _ hq).2.2.2.2.2.2]
    simp [hqne]
  have hs0 : rstripChar '0' (decDigits (N / 100) ++ '.' :: [digitChar (N % 100 / 10), '0'])
      = decDigits (N / 100) ++ '.' :: [digitChar (N % 100 / 10)] := by
    unfold rstripChar
    have e1 : (decDigits (N / 100) ++ '.' :: [digitChar (N % 100 / 10), '0']).reverse
        = '0' :: digitChar (N % 100 / 10) :: '.' :: (decDigits (N / 100)).reverse := by
      simp
    rw [e1, List.dropWhile_cons_of_pos (by decide),
      List.dropWhile_cons_of_neg (by rw [hd1]; simp)]
    simp
  rw [hs0]
  have e2 : decDigits (N / 100) ++ '.' :: [digitChar (N % 100 / 10)]
      = (decDigits (N / 100) ++ ['.']) ++ [digitChar (N % 100 / 10)] := by
    simp
  rw [e2, rstripChar_last_ne _ _ _
    (beq_eq_false_iff_ne.mpr (digitChar_facts _ hq).2.2.2.1), ← e2]

theorem pad2_split (r : Nat) (h : r < 100) :
    pad2 r = (pad2 r).dropLast ++ [digitChar (r % 10)]
      ∧ ∀ c ∈ pad2 r, ∃ d, d < 10 ∧ c = digitChar d := by
  unfold pad2
  by_cases h10 : r < 10
  · rw [if_pos h10, decDigits_of_lt r h10]
    constructor
    · have : r % 10 = r := by omega
      rw [this]
      rfl
    · intro c hc
      rcases List.mem_cons.mp hc with rfl | hc
      · exact ⟨0, by omega, by decide⟩
      · rcases List.mem_singleton.mp hc with rfl
        exact ⟨r, h10, rfl⟩
  · rw [if_neg h10, decDigits_two r h10 (by omega)]
    constructor
    · rfl
    · intro c hc
      rcases List.mem_cons.mp hc with rfl | hc
      · exact ⟨r / 10, by omega, rfl⟩
      · rcases List.mem_singleton.mp hc with rfl
        exact ⟨r % 10, by omega, rfl⟩

theorem stripped_casex (N : Nat) (h10 : N % 100 % 10 ≠ 0) :
    rstripChar '.' (rstripChar '0' (natFixed2 N))
      = decDigits (N / 100) ++ '.' :: pad2 (N % 100) := by
  have hsplit := (pad2_split (N % 100) (by omega)).1
  have hlast : (digitChar (N % 100 % 10) == '0') = false := by
    rw [(digitChar_facts _ (by omega)).2.2.2.2.2.2]
    simp [h10]
  have hlastdot : (digitChar (N % 100 % 10) == '.') = false :=
    beq_eq_false_iff_ne.mpr (digitChar_facts _ (by omega)).2.2.2.1
  unfold natFixed2
  have e1 : decDigits (N / 100) ++ '.' :: pad2 (N % 100)
      = (decDigits (N / 100) ++ '.' :: (pad2 (N % 100)).dropLast)
          ++ [digitChar (N % 100 % 10)] := by
    conv_lhs => rw [hsplit]
    simp
  rw [e1, rstripChar_last_ne _ _ _ hlast, rstripChar_last_ne _ _ _ hlastdot]

theorem pad2_val (r : Nat) (h : r < 100) :
    valDigits (pad2 r) = r ∧ (pad2 r).length = 2 := by
  unfold pad2
  by_cases h10 : r < 10
  · rw [if_pos h10, decDigits_of_lt r h10]
    constructor
    · have h0 : ('0' : Char) = digitChar 0 := by decide
      rw [h0, valDigits_pair 0 r (by omega) h10]
      omega
    · rfl
  · rw [if_neg h10, decDigits_two r h10 (by omega)]
    constructor
    · rw [valDigits_pair (r / 10) (r % 10) (by omega) (by omega)]
      omega
    · rfl

theorem pad2_digits (r : Nat) (h : r < 100) : ∀ c ∈ pad2 r, c.isDigit = true := by
  intro c hc
  rcases (pad2_split r h).2 c hc with ⟨d, hd, rfl⟩
  exact (digitChar_facts d hd).1

theorem shape_mem_facts (D F : List Char)
    (hD : ∀ x ∈ D, ∃ d, d < 10 ∧ x = digitChar d)
    (hF : ∀ x ∈ F, ∃ d, d < 10 ∧ x = digitChar d) :
    (∀ x ∈ D ++ '.' :: F, isPyWs x = false) ∧ (∀ x ∈ D ++ '.' :: F, x ≠ ',') := by
  constructor
  · intro x hx
    rcases List.mem_append.mp hx with hx | hx
    · rcases hD x hx with ⟨d, hd, rfl⟩
      exact (digitChar_facts d hd).2.1
    · rcases List.mem_cons.mp hx with rfl | hx
      · decide
      · rcases hF x hx with ⟨d, hd, rfl⟩
        exact (digitChar_facts d hd).2.1
  · intro x hx
    rcases List.mem_append.mp hx with hx | hx
    · rcases hD x hx with ⟨d, hd, rfl⟩
      exact (digitChar_facts d hd).2.2.1
    · rcases List.mem_cons.mp hx with rfl | hx
      · decide
      · rcases hF x hx with ⟨d, hd, rfl⟩
        exact (digitChar_facts d hd).2.2.1

theorem clean_float_stripped (N : Nat) :
    _clean_float ⟨rstripChar '.' (rstripChar '0' (natFixed2 N))⟩ = .ok ((N : ℚ) / 100) := by
  obtain ⟨c, t, hD⟩ : ∃ c t, decDigits (N / 100) = c :: t := by
    cases hD : decDigits (N / 100) with
    | nil => exact absurd hD (decDigits_ne_nil _)
    | cons c t => exact ⟨c, t, rfl⟩
  have hDne : decDigits (N / 100) ≠ [] := decDigits_ne_nil _
  have hDdig : ∀ x ∈ decDigits (N / 100), x.isDigit = true := decDigits_all_digit _
  have hDmem : ∀ x ∈ decDigits (N / 100), ∃ d, d < 10 ∧ x = digitChar d := decDigits_mem _
  have hcdig : c.isDigit = true := hDdig c (by rw [hD]; exact List.mem_cons_self c t)
  by_cases h0 : N % 100 = 0
  · rw [stripped_case0 N h0]
    have hval : pyFloatCore (decDigits (N / 100))
        = some ((valDigits (decDigits (N / 100)) : ℚ)) :=
      pyFloatCore_digits _ hDne hDdig
    rw [valDigits_decDigits] at hval
    have hws : ∀ x ∈ decDigits (N / 100), isPyWs x = false := by
      intro x hx
      rcases hDmem x hx with ⟨d, hd, rfl⟩
      exact (digitChar_facts d hd).2.1
    have hcm : ∀ x ∈ decDigits (N / 100), x ≠ ',' := by
      intro x hx
      rcases hDmem x hx with ⟨d, hd, rfl⟩
      exact (digitChar_facts d hd).2.2.1
    rw [clean_float_of_core _ c t hD hws hcm hcdig _ hval]
    congr 1
    rw [eq_div_iff (by norm_num : (100 : ℚ) ≠ 0)]
    exact_mod_cast (by omega : (N / 100) * 100 = N)
  · by_cases h10 : N % 100 % 10 = 0
    · rw [stripped_case10 N h0 h10]
      have hq : N % 100 / 10 < 10 := by omega
      have hFmem : ∀ x ∈ [digitChar (N % 100 / 10)], ∃ d, d < 10 ∧ x = digitChar d := by
        intro x hx
        rcases List.mem_singleton.mp hx with rfl
        exact ⟨N % 100 / 10, hq, rfl⟩
      have hFdig : ∀ x ∈ [digitChar (N % 100 / 10)], x.isDigit = true := by
        intro x hx
        rcases hFmem x hx with ⟨d, hd, rfl⟩
        exact (digitChar_facts d hd).1
      obtain ⟨hws, hcm⟩ := shape_mem_facts _ _ hDmem hFmem
      have hval := pyFloatCore_digits_dot _ _ hDne hDdig hFdig
      rw [valDigits_decDigits, valDigits_single _ hq] at hval
      have hl : decDigits (N / 100) ++ '.' :: [digitChar (N % 100 / 10)]
          = c :: (t ++ '.' :: [digitChar (N % 100 / 10)]) := by
        rw [hD]
        rfl
      rw [clean_float_of_core _ c _ hl hws hcm hcdig _ hval]
      congr 1
      have hN : (N : ℚ) = ((N / 100 : ℕ) : ℚ) * 100 + ((N % 100 / 10 : ℕ) : ℚ) * 10 := by
        exact_mod_cast (by omega : N = N / 100 * 100 + N % 100 / 10 * 10)
      rw [hN]
      show ((N / 100 : ℕ) : ℚ) + ((N % 100 / 10 : ℕ) : ℚ) / (10 : ℚ) ^ (1 : ℕ) = _
      ring
    · rw [stripped_casex N h10]
      have hr100 : N % 100 < 100 := by omega
      have hFmem := (pad2_split (N % 100) hr100).2
      have hFdig := pad2_digits (N % 100) hr100
      obtain ⟨hws, hcm⟩ := shape_mem_facts _ _ hDmem hFmem
      have hval := pyFloatCore_digits_dot _ _ hDne hDdig hFdig
      rw [valDigits_decDigits, (pad2_val (N % 100) hr100).1,
        (pad2_val (N % 100) hr100).2] at hval
      have hl : decDigits (N / 100) ++ '.' :: pad2 (N % 100)
          = c :: (t ++ '.' :: pad2 (N % 100)) := by
        rw [hD]
        rfl
      rw [clean_float_of_core _ c _ hl hws hcm hcdig _ hval]
      congr 1
      have hN : (N : ℚ) = ((N / 100 : ℕ) : ℚ) * 100 + ((N % 100 : ℕ) : ℚ) := by
        exact_mod_cast (by omega : N = N / 100 * 100 + N % 100)
      rw [hN]
      show ((N / 100 : ℕ) : ℚ) + ((N % 100 : ℕ) : ℚ) / (10 : ℚ) ^ (2 : ℕ) = _
      ring

theorem rhe_natCast (n : Nat) : rhe ((n : ℚ)) = (n : ℤ) := by
  unfold rhe
  rw [Int.floor_natCast]
  have hz : ((n : ℚ)) - ((n : ℤ) : ℚ) = 0 := by
    push_cast
    ring
  rw [hz, if_pos (by norm_num)]

theorem rhe_nonneg (q : ℚ) (h : 0 ≤ q) : 0 ≤ rhe q := by
  unfold rhe
  have hf : (0 : ℤ) ≤ ⌊q⌋ := Int.floor_nonneg.mpr h
  split_ifs <;> omega

theorem format_rating_div100 (N : Nat) :
    _format_rating ((N : ℚ) / 100) = ⟨rstripChar '.' (rstripChar '0' (natFixed2 N))⟩ := by
  unfold _format_rating fmtFixed2
  have h1 : (100 : ℚ) * ((N : ℚ) / 100) = (N : ℚ) := by
    field_simp
  rw [h1, rhe_natCast]
  rw [if_neg (by omega)]
  rw [Int.toNat_natCast]

/-- Claim C6: `_format_rating` is stable: for every representable (nonnegative)
rating `x`, the formatted string parses back via `_clean_float` to a value
that formats to the same string, i.e. re-formatting an already-formatted
value is a no-op. -/
theorem format_rating_stable (x : ℚ) (hx : 0 ≤ x) :
    ∃ y, _clean_float (_format_rating x) = .ok y ∧ _format_rating y = _format_rating x := by
  have hnn : 0 ≤ rhe (100 * x) := rhe_nonneg _ (by linarith)
  have hfmt : _format_rating x
      = ⟨rstripChar '.' (rstripChar '0' (natFixed2 (rhe (100 * x)).toNat))⟩ := by
    unfold _format_rating fmtFixed2
    rw [if_neg (by omega)]
  refine ⟨((rhe (100 * x)).toNat : ℚ) / 100, ?_, ?_⟩
  · rw [hfmt]
    exact clean_float_stripped _
  · rw [format_rating_div100, hfmt]

/-- Witness for C6 at the rating 4.5. -/
theorem format_rating_stable_witness :
    0 ≤ (9 / 2 : ℚ) ∧ ∃ y, _clean_float (_format_rating (9 / 2)) = .ok y
      ∧ _format_rating y = _format_rating (9 / 2) :=
  ⟨by norm_num, format_rating_stable (9 / 2) (by norm_num)⟩
